import Mathlib

/-!
Shallow embedding of the two numerical subsystems of the `ta-embedding`
repository: the ranking metric evaluator (`src/utils/utils.py`,
`average_precision` and `pairwise_distance_matrix`, together with the call
site in `src/model_evaluate.py`) and the semantic margin engine
(`src/margin_adapter.py`, class `MarginAdapter`).

Real-valued tensors are modelled as (lists of) rational numbers; the
`-inf` entries that `model_evaluate.evaluate` places on the diagonal of the
negated distance matrix are modelled as `⊥ : WithBot ℚ`.  `torch.topk`
returns the indices of the `k` largest entries, breaking ties towards the
earlier index; it is modelled by repeated selection of the first maximal
element.  Python exceptions (dict `KeyError` on a missing pairwise-distance
key, `IndexError` on a label index) are modelled by `Option`.
-/

namespace TAEmb

/-- Running sums of a list with accumulator `c`; models `torch.cumsum` once
applied with `c = 0`. -/
def cumsumAux (c : ℚ) : List ℚ → List ℚ
  | [] => []
  | x :: xs => (c + x) :: cumsumAux (c + x) xs

/-- Models `torch.cumsum(found, 1)` on one row. -/
def cumsum (l : List ℚ) : List ℚ := cumsumAux 0 l

/-- First maximal element of an indexed list: returns the pair whose value is
maximal, preferring the earliest pair on ties.  Helper for `topkIdx`. -/
def firstMaxPair {α : Type} [LinearOrder α] : List (ℕ × α) → Option (ℕ × α)
  | [] => none
  | p :: ps =>
    match firstMaxPair ps with
    | none => some p
    | some q => if p.2 < q.2 then some q else some p

/-- Repeatedly select the first maximal pair and drop it; helper for
`topkIdx`. -/
def topkAux {α : Type} [LinearOrder α] : ℕ → List (ℕ × α) → List ℕ
  | 0, _ => []
  | k + 1, l =>
    match firstMaxPair l with
    | none => []
    | some p => p.1 :: topkAux k (l.filter (fun q => decide (q.1 ≠ p.1)))

/-- Models `torch.topk(row, k)` (indices component): the indices of the `k`
largest entries of `row`, in decreasing order of value, ties broken towards
the smaller index. -/
def topkIdx {α : Type} [LinearOrder α] (k : ℕ) (row : List α) : List ℕ :=
  topkAux k row.enum

/-- Models `torch.gather(ytrue, 1, spred)` on one row: reorder `ytrueRow`
according to the index list `idxs`. -/
def gatherRow (ytrueRow : List ℚ) (idxs : List ℕ) : List ℚ :=
  idxs.map (fun j => ytrueRow.getD j 0)

/-- Models `torch.arange(k).float() * 1e-6`, the tie-breaking epsilon
sequence. -/
def tempSeq (k : ℕ) : List ℚ :=
  (List.range k).map (fun (j : ℕ) => (j : ℚ) * (1 / 1000000))

/-- Positions `m+1, …, m+k` as rationals; `posFrom 0 k` models
`torch.arange(1, k+1)`. -/
def posFrom (m k : ℕ) : List ℚ :=
  (List.range k).map (fun j => ((m + j : ℕ) : ℚ) + 1)

/-- Models `(found > 0).float()` on one row. -/
def maskRow (fr : List ℚ) : List ℚ :=
  fr.map (fun v => if 0 < v then (1 : ℚ) else 0)

/-- Mean of a list of rationals; models `torch.mean` / `np.mean` (on the
empty list the model returns `0` where numpy returns NaN; no claim touches
that case). -/
def listMean (l : List ℚ) : ℚ := l.sum / (l.length : ℚ)

/-- Models the cutoff clamp of `average_precision`:
`if k is None or not 3 <= k <= ypred.size(1): k = ypred.size(1)`. -/
def clampK (kOpt : Option ℕ) (n : ℕ) : ℕ :=
  match kOpt with
  | none => n
  | some k => if 3 ≤ k ∧ k ≤ n then k else n

/-- Number of columns of a matrix given as a list of rows, i.e.
`m.size(1)` for the rectangular tensors used by the source. -/
def nCols {α : Type} (m : List (List α)) : ℕ := m.headI.length

/-- Effective cutoff `k` used by `average_precision` on `ypred`. -/
def kOf (ypred : List (List (WithBot ℚ))) (kOpt : Option ℕ) : ℕ :=
  clampK kOpt (nCols ypred)

/-- Models `_, spred = torch.topk(ypred, k, dim=1)`. -/
def spredM (ypred : List (List (WithBot ℚ))) (kOpt : Option ℕ) : List (List ℕ) :=
  ypred.map (topkIdx (kOf ypred kOpt))

/-- Models `found = torch.gather(ytrue, 1, spred)`. -/
def foundM (ytrue : List (List ℚ)) (ypred : List (List (WithBot ℚ)))
    (kOpt : Option ℕ) : List (List ℚ) :=
  List.zipWith gatherRow ytrue (spredM ypred kOpt)

/-- Models `_, sel = torch.topk(found - temp, 1, dim=1)`: the (0-indexed)
position of the first relevant item in each reordered row, chosen by the
epsilon-subtraction tie-break. -/
def selList (ytrue : List (List ℚ)) (ypred : List (List (WithBot ℚ)))
    (kOpt : Option ℕ) : List ℕ :=
  (foundM ytrue ypred kOpt).map
    (fun fr => (topkIdx 1 (List.zipWith (fun a b => a - b) fr
      (tempSeq (kOf ypred kOpt)))).headI)

/-- Models `mrr = torch.mean(1/(sel+1).float())`. -/
def mrrOf (ytrue : List (List ℚ)) (ypred : List (List (WithBot ℚ)))
    (kOpt : Option ℕ) : ℚ :=
  listMean ((selList ytrue ypred kOpt).map (fun (s : ℕ) => 1 / ((s : ℚ) + 1)))

/-- Models `mr = torch.mean((sel+1).float())`. -/
def mrOf (ytrue : List (List ℚ)) (ypred : List (List (WithBot ℚ)))
    (kOpt : Option ℕ) : ℚ :=
  listMean ((selList ytrue ypred kOpt).map (fun (s : ℕ) => (s : ℚ) + 1))

/-- Models `top1 = torch.sum(found[:, 0])`. -/
def top1Of (ytrue : List (List ℚ)) (ypred : List (List (WithBot ℚ)))
    (kOpt : Option ℕ) : ℚ :=
  ((foundM ytrue ypred kOpt).map (fun fr => fr.getD 0 0)).sum

/-- Models `top10 = torch.sum(found[:, :10])`. -/
def top10Of (ytrue : List (List ℚ)) (ypred : List (List (WithBot ℚ)))
    (kOpt : Option ℕ) : ℚ :=
  ((foundM ytrue ypred kOpt).map (fun fr => (fr.take 10).sum)).sum

/-- Per-query average precision as computed by the source:
`torch.sum(prec*mask, 1) / (torch.sum(ytrue, 1) + eps)` with
`prec = cumsum/pos` and `mask = (found > 0).float()`. -/
def apRow (k : ℕ) (eps : ℚ) (ytrueRow foundRow : List ℚ) : ℚ :=
  (List.zipWith (fun a b => a * b)
    (List.zipWith (fun a b => a / b) (cumsum foundRow) (posFrom 0 k))
    (maskRow foundRow)).sum / (ytrueRow.sum + eps)

/-- The unfiltered vector `ap` of per-query average precisions. -/
def apAll (ytrue : List (List ℚ)) (ypred : List (List (WithBot ℚ)))
    (kOpt : Option ℕ) (eps : ℚ) : List ℚ :=
  List.zipWith (apRow (kOf ypred kOpt) eps) ytrue (foundM ytrue ypred kOpt)

/-- Models `ap = ap[torch.sum(ytrue, 1) > 0]`: the per-query average
precisions of the queries with positive ground-truth row sum. -/
def apFiltered (ytrue : List (List ℚ)) (ypred : List (List (WithBot ℚ)))
    (kOpt : Option ℕ) (eps : ℚ) : List ℚ :=
  ((ytrue.zip (apAll ytrue ypred kOpt eps)).filter
    (fun p => decide (0 < p.1.sum))).map Prod.snd

/-- Models the reported `ap.mean()`, the mAP value. -/
def mapOf (ytrue : List (List ℚ)) (ypred : List (List (WithBot ℚ)))
    (kOpt : Option ℕ) (eps : ℚ) : ℚ :=
  listMean (apFiltered ytrue ypred kOpt eps)

/-- Models `torch.mm(x, y.t())` entrywise: the dot product of two vectors
(`zipWith` truncates at the shorter list; the source tensors always have
equal width). -/
def dotp (x y : List ℚ) : ℚ := (List.zipWith (fun a b => a * b) x y).sum

/-- Squared Euclidean norm `x.pow(2).sum(1)` of one vector. -/
def normSq (x : List ℚ) : ℚ := dotp x x

/-- Componentwise vector subtraction. -/
def vecSub (x y : List ℚ) : List ℚ := List.zipWith (fun a b => a - b) x y

/-- Models `pairwise_distance_matrix(x, y, eps)` from `src/utils/utils.py`:
`dist = x_norm + y_norm - 2 * torch.mm(x, y.t())` followed by
`torch.clamp(dist, eps, np.inf)`; the upper clamp at `+inf` is a no-op, so
each entry is `max eps (…)`.  When `y` is `none` the source sets `y = x`. -/
def pairwise_distance_matrix (x : List (List ℚ)) (y : Option (List (List ℚ)))
    (eps : ℚ) : List (List ℚ) :=
  let ys := y.getD x
  x.map (fun xi => ys.map (fun yj =>
    max eps (normSq xi + normSq yj - 2 * dotp xi yj)))

/-- Models the matrix passed to `average_precision` by
`model_evaluate.evaluate`:
`-1 * dist_map_matrix + torch.diag(torch.ones(N) * float('-inf'))`, i.e.
the negated distance matrix with the diagonal forced to `-inf` (adding
`-inf` to the finite diagonal entry yields `-inf`). -/
def evalYpred (dist : List (List ℚ)) : List (List (WithBot ℚ)) :=
  dist.enum.map (fun ir =>
    ir.2.enum.map (fun jd =>
      if ir.1 = jd.1 then (⊥ : WithBot ℚ) else ((-jd.2 : ℚ) : WithBot ℚ)))

/-- Left-to-right effectful map over `Option`, modelling a Python loop that
appends one result per element and aborts the whole call on the first
raised exception. -/
def mapMopt {α β : Type} (f : α → Option β) : List α → Option (List β)
  | [] => some []
  | a :: as =>
    match f a, mapMopt f as with
    | some b, some bs => some (b :: bs)
    | _, _ => none

/-- Ordered pairs of distinct labels, in the order produced by
`itertools.permutations(keys, 2)` for a duplicate-free key list. -/
def distinctPairs {L : Type} [DecidableEq L] (ks : List L) : List (L × L) :=
  ks.flatMap (fun a => (ks.filter (fun b => decide (b ≠ a))).map (fun b => (a, b)))

/-- State of a constructed `MarginAdapter` (`src/margin_adapter.py`): the
base margin, the pairwise semantic distance table, its mean, and the
`dist_semantic` table holding `dist/4 - base_margin` per pair. -/
structure MarginAdapter (L : Type) where
  base_margin : ℚ
  pairwise_dists : List ((L × L) × ℚ)
  average_dist : ℚ
  dist_semantic : List ((L × L) × ℚ)

/-- Models `MarginAdapter.__init__` given an already-built label→vector
mapping `ltv` (an association list with duplicate-free keys, the insertion
order of the Python dict).  The parameter `nrm` stands for
`np.linalg.norm`: the Euclidean norm is irrational in general, so the
construction is parameterised by the norm function; none of the proved
properties depend on its values, and concrete witnesses instantiate it
with `absNorm1`, which agrees with `np.linalg.norm` on vectors of length
at most one. -/
def mkMarginAdapter {L : Type} [DecidableEq L] (nrm : List ℚ → ℚ)
    (ltv : List (L × List ℚ)) (base : ℚ) : MarginAdapter L :=
  let ks := ltv.map Prod.fst
  let d : L × L → ℚ := fun ab =>
    nrm (vecSub ((ltv.lookup ab.1).getD []) ((ltv.lookup ab.2).getD []))
  let pd := (distinctPairs ks).map (fun ab => (ab, d ab))
  { base_margin := base
    pairwise_dists := pd
    average_dist := listMean (pd.map Prod.snd)
    dist_semantic := (distinctPairs ks).map (fun ab => (ab, d ab / 4 - base)) }

/-- Models `MarginAdapter.adapt` (binary-threshold policy): for each triple,
look the `(pos_label, neg_label)` distance up and append
`[base_margin + 1]` when it exceeds the average distance, else
`[base_margin - 1]`; a missing label index or table key raises, modelled by
`none`. -/
def adapt {L : Type} [DecidableEq L] (A : MarginAdapter L) (labels : List L)
    (selPos selNeg : List ℕ) : Option (List (List ℚ)) :=
  mapMopt (fun pn =>
    (labels[pn.1]?).bind (fun pl =>
      (labels[pn.2]?).bind (fun nl =>
        (A.pairwise_dists.lookup (pl, nl)).map (fun d =>
          if A.average_dist < d then [A.base_margin + 1]
          else [A.base_margin - 1]))))
    (selPos.zip selNeg)

/-- Models `MarginAdapter.adapt2` (continuous policy): for each triple, look
the `dist_semantic` entry up and append `[base_margin + dist]`. -/
def adapt2 {L : Type} [DecidableEq L] (A : MarginAdapter L) (labels : List L)
    (selPos selNeg : List ℕ) : Option (List (List ℚ)) :=
  mapMopt (fun pn =>
    (labels[pn.1]?).bind (fun pl =>
      (labels[pn.2]?).bind (fun nl =>
        (A.dist_semantic.lookup (pl, nl)).map (fun d =>
          [A.base_margin + d]))))
    (selPos.zip selNeg)

/-- Exact value of `np.linalg.norm` on rational vectors of length at most
one; used to instantiate the abstract norm parameter in concrete
witnesses. -/
def absNorm1 (v : List ℚ) : ℚ := (v.map (fun a => |a|)).sum

/-- Count of entries equal to `1` in a row, i.e. the number of relevant
items of a binary relevance row; written from the specification's words
for comparison with the source's `torch.sum(ytrue, 1)`. -/
def countOnes (l : List ℚ) : ℚ :=
  ((l.filter (fun v => decide (v = 1))).length : ℚ)

/-- Specification-side average precision with accumulators: sum over the
positions `j` holding a `1` of `(c + count of ones in positions 0..j) /
(m + j + 1)`.  With `c = 0`, `m = 0` this is the specification's
`Σ_{found j = 1} precision-at-j`. -/
def specAPFrom (c : ℚ) (m : ℕ) (fr : List ℚ) : ℚ :=
  (((List.range fr.length).filter (fun j => decide (fr.getD j 0 = 1))).map
    (fun j => (c + countOnes (fr.take (j + 1))) / (((m + j : ℕ) : ℚ) + 1))).sum

/-- Specification-side per-query average precision numerator:
`Σ_{positions j with found = 1} (count of relevant in 1..j) / j`. -/
def specAP (fr : List ℚ) : ℚ := specAPFrom 0 0 fr

/-- A relevance row is binary when every entry is `0` or `1`. -/
abbrev BinaryRow (l : List ℚ) : Prop := ∀ v ∈ l, v = 0 ∨ v = 1

theorem mapMopt_nil {α β : Type} (f : α → Option β) : mapMopt f [] = some [] := rfl

theorem mapMopt_cons {α β : Type} (f : α → Option β) (a : α) (l : List α) :
    mapMopt f (a :: l) = match f a, mapMopt f l with
      | some b, some bs => some (b :: bs) | _, _ => none := rfl

theorem mapMopt_length {α β : Type} {f : α → Option β} :
    ∀ {l : List α} {out : List β}, mapMopt f l = some out → out.length = l.length := by
  intro l
  induction l with
  | nil => intro out h; simp [mapMopt] at h; simp [← h]
  | cons a as ih =>
    intro out h
    rw [mapMopt_cons] at h
    cases hfa : f a with
    | none => rw [hfa] at h; exact absurd h (by simp)
    | some b =>
      cases hrest : mapMopt f as with
      | none => rw [hfa, hrest] at h; exact absurd h (by simp)
      | some bs =>
        rw [hfa, hrest] at h
        simp only [Option.some.injEq] at h
        subst h
        simp [ih hrest]

theorem mapMopt_getElem? {α β : Type} {f : α → Option β} :
    ∀ {l : List α} {out : List β}, mapMopt f l = some out →
      ∀ {i : ℕ} {a : α}, l[i]? = some a →
        ∃ b, f a = some b ∧ out[i]? = some b := by
  intro l
  induction l with
  | nil => intro out _ i a ha; simp at ha
  | cons x xs ih =>
    intro out h i a ha
    rw [mapMopt_cons] at h
    cases hfa : f x with
    | none => rw [hfa] at h; exact absurd h (by simp)
    | some b =>
      cases hrest : mapMopt f xs with
      | none => rw [hfa, hrest] at h; exact absurd h (by simp)
      | some bs =>
        rw [hfa, hrest] at h
        simp only [Option.some.injEq] at h
        subst h
        cases i with
        | zero =>
          simp only [List.getElem?_cons_zero, Option.some.injEq] at ha
          subst ha
          exact ⟨b, hfa, by simp⟩
        | succ n =>
          simp only [List.getElem?_cons_succ] at ha
          obtain ⟨b2, hb2, hout⟩ := ih hrest ha
          exact ⟨b2, hb2, by simpa using hout⟩

theorem mapMopt_mem {α β : Type} {f : α → Option β} :
    ∀ {l : List α} {out : List β}, mapMopt f l = some out →
      ∀ {m : β}, m ∈ out → ∃ a ∈ l, f a = some m := by
  intro l
  induction l with
  | nil => intro out h m hm; simp [mapMopt] at h; subst h; simp at hm
  | cons x xs ih =>
    intro out h m hm
    rw [mapMopt_cons] at h
    cases hfa : f x with
    | none => rw [hfa] at h; exact absurd h (by simp)
    | some b =>
      cases hrest : mapMopt f xs with
      | none => rw [hfa, hrest] at h; exact absurd h (by simp)
      | some bs =>
        rw [hfa, hrest] at h
        simp only [Option.some.injEq] at h
        subst h
        rcases List.mem_cons.mp hm with hm | hm
        · exact ⟨x, List.mem_cons_self x xs, by rw [hfa, hm]⟩
        · obtain ⟨a, ha, hfa2⟩ := ih hrest hm
          exact ⟨a, List.mem_cons_of_mem x ha, hfa2⟩

theorem mapMopt_congr {α β : Type} {f g : α → Option β} :
    ∀ {l : List α}, (∀ a ∈ l, f a = g a) → mapMopt f l = mapMopt g l := by
  intro l
  induction l with
  | nil => intro _; rfl
  | cons x xs ih =>
    intro h
    rw [mapMopt_cons, mapMopt_cons, h x (List.mem_cons_self x xs),
      ih (fun a ha => h a (List.mem_cons_of_mem x ha))]

theorem mapMopt_none {α β : Type} {f : α → Option β} :
    ∀ {l : List α} {a : α}, a ∈ l → f a = none → mapMopt f l = none := by
  intro l
  induction l with
  | nil => intro a ha; simp at ha
  | cons x xs ih =>
    intro a ha hfa
    rw [mapMopt_cons]
    rcases List.mem_cons.mp ha with h | h
    · subst h; rw [hfa]
    · rw [ih h hfa]
      cases f x <;> rfl

/-- Lookup in an association list whose entries are built by mapping a value
function over a key list: the result is the value at the key when the key
occurs, and `none` otherwise. -/
theorem lookup_map_pair {L : Type} [DecidableEq L] (f : L × L → ℚ) :
    ∀ (ps : List (L × L)) (key : L × L),
      ((ps.map (fun x => (x, f x))).lookup key) =
        if key ∈ ps then some (f key) else none := by
  intro ps
  induction ps with
  | nil => intro key; simp
  | cons p ps ih =>
    intro key
    by_cases h : key = p
    · subst h
      simp [List.lookup_cons]
    · simp [List.lookup_cons, beq_eq_false_iff_ne.mpr h, ih key, h]

theorem firstMaxPair_eq_none {α : Type} [LinearOrder α] :
    ∀ {l : List (ℕ × α)}, firstMaxPair l = none ↔ l = [] := by
  intro l
  cases l with
  | nil => simp [firstMaxPair]
  | cons p ps =>
    simp only [firstMaxPair]
    constructor
    · intro h
      cases hp : firstMaxPair ps with
      | none => rw [hp] at h; exact absurd h (by simp)
      | some q => rw [hp] at h; by_cases hlt : p.2 < q.2 <;> simp [hlt] at h
    · intro h; exact absurd h (by simp)

theorem firstMaxPair_mem {α : Type} [LinearOrder α] :
    ∀ {l : List (ℕ × α)} {p : ℕ × α}, firstMaxPair l = some p → p ∈ l := by
  intro l
  induction l with
  | nil => intro p h; simp [firstMaxPair] at h
  | cons x xs ih =>
    intro p h
    cases hx : firstMaxPair xs with
    | none =>
      simp only [firstMaxPair, hx, Option.some.injEq] at h
      subst h
      exact List.mem_cons_self x xs
    | some q =>
      by_cases hlt : x.2 < q.2
      · simp only [firstMaxPair, hx, if_pos hlt, Option.some.injEq] at h
        subst h
        exact List.mem_cons_of_mem x (ih hx)
      · simp only [firstMaxPair, hx, if_neg hlt, Option.some.injEq] at h
        subst h
        exact List.mem_cons_self x xs

theorem firstMaxPair_isMax {α : Type} [LinearOrder α] :
    ∀ {l : List (ℕ × α)} {p : ℕ × α}, firstMaxPair l = some p →
      ∀ q ∈ l, q.2 ≤ p.2 := by
  intro l
  induction l with
  | nil => intro p h; simp [firstMaxPair] at h
  | cons x xs ih =>
    intro p h q hq
    cases hx : firstMaxPair xs with
    | none =>
      simp only [firstMaxPair, hx, Option.some.injEq] at h
      subst h
      rcases List.mem_cons.mp hq with hq | hq
      · exact le_of_eq (by rw [hq])
      · exact absurd (firstMaxPair_eq_none.mp hx ▸ hq) (by simp)
    | some r =>
      by_cases hlt : x.2 < r.2
      · simp only [firstMaxPair, hx, if_pos hlt, Option.some.injEq] at h
        subst h
        rcases List.mem_cons.mp hq with hq | hq
        · exact le_of_lt (by rw [hq]; exact hlt)
        · exact ih hx q hq
      · simp only [firstMaxPair, hx, if_neg hlt, Option.some.injEq] at h
        subst h
        rcases List.mem_cons.mp hq with hq | hq
        · exact le_of_eq (by rw [hq])
        · exact le_trans (ih hx q hq) (not_lt.mp hlt)

theorem firstMaxPair_cons_cases {α : Type} [LinearOrder α]
    {x : ℕ × α} {xs : List (ℕ × α)} {r : ℕ × α}
    (h : firstMaxPair (x :: xs) = some r) :
    r = x ∨ (r ∈ xs ∧ x.2 < r.2) := by
  cases hx : firstMaxPair xs with
  | none =>
    simp only [firstMaxPair, hx, Option.some.injEq] at h
    exact Or.inl h.symm
  | some q =>
    by_cases hlt : x.2 < q.2
    · simp only [firstMaxPair, hx, if_pos hlt, Option.some.injEq] at h
      subst h
      exact Or.inr ⟨firstMaxPair_mem hx, hlt⟩
    · simp only [firstMaxPair, hx, if_neg hlt, Option.some.injEq] at h
      exact Or.inl h.symm

theorem topkAux_length_le {α : Type} [LinearOrder α] :
    ∀ (k : ℕ) (l : List (ℕ × α)), (topkAux k l).length ≤ k := by
  intro k
  induction k with
  | zero => intro l; simp [topkAux]
  | succ n ih =>
    intro l
    simp only [topkAux]
    cases firstMaxPair l with
    | none => simp
    | some p => simpa using ih _

theorem topkAux_head {α : Type} [LinearOrder α] {k : ℕ} {l : List (ℕ × α)}
    {p : ℕ × α} (hk : k ≠ 0) (hp : firstMaxPair l = some p) :
    (topkAux k l).head? = some p.1 := by
  cases k with
  | zero => exact absurd rfl hk
  | succ n => simp [topkAux, hp]

theorem binaryRow_getD {l : List ℚ} (h : BinaryRow l) (j : ℕ) :
    l.getD j 0 = 0 ∨ l.getD j 0 = 1 := by
  cases hj : l[j]? with
  | none => left; simp [List.getD, hj]
  | some v =>
    have hv : v ∈ l := List.getElem?_mem hj
    have := h v hv
    simp [List.getD, hj, this]

theorem binaryRow_sum_nonneg {l : List ℚ} (h : BinaryRow l) : 0 ≤ l.sum := by
  induction l with
  | nil => simp
  | cons x xs ih =>
    have hx := h x (List.mem_cons_self x xs)
    have hxs := ih (fun v hv => h v (List.mem_cons_of_mem x hv))
    rcases hx with hx | hx <;> subst hx <;> simp <;> linarith

theorem binaryRow_sum_pos_iff {l : List ℚ} (h : BinaryRow l) :
    0 < l.sum ↔ (1 : ℚ) ∈ l := by
  induction l with
  | nil => simp
  | cons x xs ih =>
    have hx := h x (List.mem_cons_self x xs)
    have hxs : BinaryRow xs := fun v hv => h v (List.mem_cons_of_mem x hv)
    have hnn := binaryRow_sum_nonneg hxs
    rcases hx with hx | hx <;> subst hx
    · simp only [List.sum_cons, zero_add, List.mem_cons]
      rw [ih hxs]
      constructor
      · exact fun h2 => Or.inr h2
      · rintro (h2 | h2)
        · exact absurd h2.symm (by norm_num)
        · exact h2
    · simp only [List.sum_cons]
      constructor
      · intro _; exact List.mem_cons_self 1 xs
      · intro _; linarith

theorem binaryRow_countOnes_eq_sum {l : List ℚ} (h : BinaryRow l) :
    countOnes l = l.sum := by
  induction l with
  | nil => simp [countOnes]
  | cons x xs ih =>
    have hx := h x (List.mem_cons_self x xs)
    have hxs : BinaryRow xs := fun v hv => h v (List.mem_cons_of_mem x hv)
    have ihx := ih hxs
    simp only [countOnes] at ihx
    rcases hx with hx | hx <;> subst hx <;>
      simp only [countOnes, List.filter_cons, List.sum_cons] <;>
      norm_num <;> rw [ihx] <;> ring

theorem getD_zero_of_all_zero {l : List ℚ} (h : ∀ v ∈ l, v = 0) (j : ℕ) :
    l.getD j 0 = 0 := by
  cases hj : l[j]? with
  | none => simp [List.getD, hj]
  | some v => simp [List.getD, hj, h v (List.getElem?_mem hj)]

theorem gatherRow_length (ytrueRow : List ℚ) (idxs : List ℕ) :
    (gatherRow ytrueRow idxs).length = idxs.length := by
  simp [gatherRow]

theorem gatherRow_all_zero {ytrueRow : List ℚ} (h : ∀ v ∈ ytrueRow, v = 0)
    (idxs : List ℕ) : ∀ v ∈ gatherRow ytrueRow idxs, v = 0 := by
  intro v hv
  simp only [gatherRow, List.mem_map] at hv
  obtain ⟨j, _, hj⟩ := hv
  rw [← hj]
  exact getD_zero_of_all_zero h j

theorem gatherRow_binary {ytrueRow : List ℚ} (h : BinaryRow ytrueRow)
    (idxs : List ℕ) : BinaryRow (gatherRow ytrueRow idxs) := by
  intro v hv
  simp only [gatherRow, List.mem_map] at hv
  obtain ⟨j, _, hj⟩ := hv
  rw [← hj]
  exact binaryRow_getD h j

theorem clampK_pos {kOpt : Option ℕ} {n : ℕ} (hn : 1 ≤ n) :
    1 ≤ clampK kOpt n := by
  cases kOpt with
  | none => exact hn
  | some k =>
    simp only [clampK]
    by_cases h : 3 ≤ k ∧ k ≤ n
    · rw [if_pos h]; omega
    · rw [if_neg h]; exact hn

theorem topkAux_ne_nil {α : Type} [LinearOrder α] {k : ℕ} {l : List (ℕ × α)}
    (hk : k ≠ 0) (hl : l ≠ []) : topkAux k l ≠ [] := by
  cases k with
  | zero => exact absurd rfl hk
  | succ n =>
    cases hp : firstMaxPair l with
    | none => exact absurd (firstMaxPair_eq_none.mp hp) hl
    | some p => simp [topkAux, hp]

theorem topkIdx_length_le {α : Type} [LinearOrder α] (k : ℕ) (row : List α) :
    (topkIdx k row).length ≤ k :=
  topkAux_length_le k row.enum

/-- Tie-break of `torch.topk(found - temp, 1)` on an all-zero reordered
relevance row: the strictly increasing epsilon sequence makes position `0`
the unique argmax, so the selected first-relevant position is `0`. -/
theorem sel_of_zero_row {fr : List ℚ} {k : ℕ}
    (hfr : ∀ v ∈ fr, v = 0) (hfr0 : fr ≠ []) (hk : k ≠ 0) :
    topkIdx 1 (List.zipWith (fun a b => a - b) fr (tempSeq k)) = [0] := by
  cases fr with
  | nil => exact absurd rfl hfr0
  | cons f0 frt =>
    cases k with
    | zero => exact absurd rfl hk
    | succ km =>
      have hf0 : f0 = 0 := hfr f0 (List.mem_cons_self f0 frt)
      have htempk : tempSeq (km + 1) =
          0 :: (List.range km).map (fun j => ((j + 1 : ℕ) : ℚ) * (1 / 1000000)) := by
        apply List.ext_getElem?
        intro n
        cases n with
        | zero =>
          rw [List.getElem?_cons_zero, tempSeq, List.getElem?_map,
            List.getElem?_range (Nat.succ_pos km)]
          simp
        | succ m =>
          rw [List.getElem?_cons_succ, tempSeq, List.getElem?_map, List.getElem?_map]
          by_cases hm : m < km
          · rw [List.getElem?_range hm, List.getElem?_range (Nat.succ_lt_succ hm)]
            simp only [Option.map_some']
          · rw [List.getElem?_eq_none (by simp [Nat.succ_le_succ (Nat.le_of_not_lt hm)]),
              List.getElem?_eq_none (by simp [Nat.le_of_not_lt hm])]
            simp
      rw [htempk, hf0]
      simp only [List.zipWith_cons_cons, sub_zero]
      set ts : List ℚ := (List.range km).map (fun j => ((j + 1 : ℕ) : ℚ) * (1 / 1000000))
      set t1 : List ℚ := List.zipWith (fun a b => a - b) frt ts
      have hneg : ∀ q ∈ t1.enumFrom 1, q.2 < (0 : ℚ) := by
        rintro ⟨n, x⟩ hq
        rw [List.mk_mem_enumFrom_iff_le_and_getElem?_sub] at hq
        obtain ⟨-, hget⟩ := hq
        rw [List.getElem?_zipWith_eq_some] at hget
        obtain ⟨a, b, ha, hb, hab⟩ := hget
        have ha0 : a = 0 :=
          hfr a (List.mem_cons_of_mem f0 (List.getElem?_mem ha))
        have hb0 : 0 < b := by
          have hbmem : b ∈ ts := List.getElem?_mem hb
          simp only [ts, List.mem_map] at hbmem
          obtain ⟨j, -, hj⟩ := hbmem
          rw [← hj]
          positivity
        simp only [← hab, ha0]
        linarith
      have hfmp : firstMaxPair (((0 : ℚ) :: t1).enum) = some (0, 0) := by
        rw [List.enum_cons]
        cases hrest : firstMaxPair (t1.enumFrom 1) with
        | none => simp [firstMaxPair, hrest]
        | some q =>
          have hq2 : q.2 < (0 : ℚ) := hneg q (firstMaxPair_mem hrest)
          simp [firstMaxPair, hrest, not_lt.mpr (le_of_lt hq2)]
      simp [topkIdx, topkAux, hfmp]

/-- Row `i` of the matrix that `evaluate` passes to `average_precision`. -/
theorem evalYpred_getElem {dist : List (List ℚ)} {i : ℕ} {r : List ℚ}
    (h : dist[i]? = some r) :
    (evalYpred dist)[i]? = some (r.enum.map (fun jd =>
      if i = jd.1 then (⊥ : WithBot ℚ) else ((-jd.2 : ℚ) : WithBot ℚ))) := by
  simp [evalYpred, List.getElem?_map, List.getElem?_enum, h]

theorem evalYpredRow_getElem (i : ℕ) {j : ℕ} {r : List ℚ} {d : ℚ}
    (h : r[j]? = some d) :
    (r.enum.map (fun jd =>
      if i = jd.1 then (⊥ : WithBot ℚ) else ((-jd.2 : ℚ) : WithBot ℚ)))[j]? =
      some (if i = j then (⊥ : WithBot ℚ) else ((-d : ℚ) : WithBot ℚ)) := by
  simp [List.getElem?_map, List.getElem?_enum, h]

theorem nCols_evalYpred {dist : List (List ℚ)} (h : dist ≠ []) :
    nCols (evalYpred dist) = nCols dist := by
  cases dist with
  | nil => exact absurd rfl h
  | cons r rs => simp [nCols, evalYpred, List.enum_cons]

theorem cumsumAux_cons (c x : ℚ) (xs : List ℚ) :
    cumsumAux c (x :: xs) = (c + x) :: cumsumAux (c + x) xs := rfl

theorem maskRow_cons (x : ℚ) (xs : List ℚ) :
    maskRow (x :: xs) = (if 0 < x then (1 : ℚ) else 0) :: maskRow xs := rfl

theorem posFrom_succ (m k : ℕ) :
    posFrom m (k + 1) = ((m : ℚ) + 1) :: posFrom (m + 1) k := by
  simp only [posFrom, List.range_succ_eq_map, List.map_cons, List.map_map,
    Nat.add_zero]
  refine congrArg₂ _ rfl ?_
  apply List.map_congr_left
  intro a _
  simp only [Function.comp_apply]
  push_cast
  ring

theorem countOnes_cons (x : ℚ) (xs : List ℚ) :
    countOnes (x :: xs) = (if x = 1 then 1 else 0) + countOnes xs := by
  simp only [countOnes, List.filter_cons]
  by_cases hx : x = 1
  · rw [if_pos (by simp [hx]), if_pos hx, List.length_cons]
    push_cast
    ring
  · rw [if_neg (by simp [hx]), if_neg hx, zero_add]

/-- Unfolding of the specification-side average precision over a cons cell
with a binary head: the head contributes its precision term when it is a
hit, and the tail is accounted with the hit count and position shifted. -/
theorem specAPFrom_cons {x : ℚ} (hx : x = 0 ∨ x = 1) (xs : List ℚ)
    (c : ℚ) (m : ℕ) :
    specAPFrom c m (x :: xs) =
      (if x = 1 then (c + 1) / ((m : ℚ) + 1) else 0) +
        specAPFrom (c + x) (m + 1) xs := by
  have htail :
      ((List.range xs.length).filter
          ((fun j => decide ((x :: xs).getD j 0 = 1)) ∘ Nat.succ)).map
        ((fun j => (c + countOnes ((x :: xs).take (j + 1))) /
            (((m + j : ℕ) : ℚ) + 1)) ∘ Nat.succ) =
      ((List.range xs.length).filter (fun j => decide (xs.getD j 0 = 1))).map
        (fun j => ((c + x) + countOnes (xs.take (j + 1))) /
            ((((m + 1) + j : ℕ) : ℚ) + 1)) := by
    have hpred : ((fun j => decide ((x :: xs).getD j 0 = 1)) ∘ Nat.succ) =
        (fun j => decide (xs.getD j 0 = 1)) := by
      funext j
      simp [Function.comp_apply, List.getD_cons_succ]
    rw [hpred]
    apply List.map_congr_left
    intro j _
    simp only [Function.comp_apply]
    have htake : (x :: xs).take (Nat.succ j + 1) = x :: xs.take (j + 1) :=
      List.take_cons_succ
    rw [htake, countOnes_cons]
    have hnum : c + ((if x = 1 then (1 : ℚ) else 0) + countOnes (xs.take (j + 1)))
        = (c + x) + countOnes (xs.take (j + 1)) := by
      rcases hx with hx | hx <;> subst hx
      · rw [if_neg (by norm_num)]
        ring
      · rw [if_pos rfl]
        ring
    rw [hnum]
    have hden : (((m + Nat.succ j : ℕ) : ℚ) + 1) = ((((m + 1) + j : ℕ) : ℚ) + 1) := by
      push_cast
      ring
    rw [hden]
  rcases hx with hx | hx <;> subst hx <;>
    simp only [specAPFrom, List.length_cons, List.range_succ_eq_map,
      List.filter_cons, List.getD_cons_zero, List.filter_map, List.map_map]
  · rw [if_neg (by simp : ¬ (decide ((0 : ℚ) = 1) = true)), List.map_map, htail,
      if_neg (by norm_num : ¬ ((0 : ℚ) = 1)), zero_add]
  · rw [if_pos (by simp : decide True = true), List.map_cons,
      List.sum_cons, List.map_map, htail, if_pos trivial]
    have hhead : countOnes (((1 : ℚ) :: xs).take (0 + 1)) = 1 := by
      simp [countOnes]
    rw [hhead]
    norm_num

/-- The per-row numerator `torch.sum(prec*mask, 1)` of the source equals the
specification-side average precision sum, for binary rows that fit inside
the cutoff. -/
theorem apSum_eq : ∀ (fr : List ℚ) (c : ℚ) (m k : ℕ), BinaryRow fr →
    fr.length ≤ k →
    (List.zipWith (fun a b => a * b)
      (List.zipWith (fun a b => a / b) (cumsumAux c fr) (posFrom m k))
      (maskRow fr)).sum = specAPFrom c m fr := by
  intro fr
  induction fr with
  | nil => intro c m k _ _; simp [cumsumAux, maskRow, specAPFrom]
  | cons x xs ih =>
    intro c m k hb hk
    have hx := hb x (List.mem_cons_self x xs)
    have hxs : BinaryRow xs := fun v hv => hb v (List.mem_cons_of_mem x hv)
    cases k with
    | zero => simp at hk
    | succ k0 =>
      have hk0 : xs.length ≤ k0 := by simpa using hk
      rw [posFrom_succ, cumsumAux_cons, maskRow_cons, List.zipWith_cons_cons,
        List.zipWith_cons_cons, List.sum_cons,
        ih (c + x) (m + 1) k0 hxs hk0, specAPFrom_cons hx]
      rcases hx with hx | hx <;> subst hx <;> norm_num

theorem dotp_cons (a b : ℚ) (x y : List ℚ) :
    dotp (a :: x) (b :: y) = a * b + dotp x y := by
  simp [dotp]

theorem vecSub_cons (a b : ℚ) (x y : List ℚ) :
    vecSub (a :: x) (b :: y) = (a - b) :: vecSub x y := rfl

/-- Exactness of the dot-product identity used by
`pairwise_distance_matrix`: over the rationals,
`‖x‖² + ‖y‖² - 2⟨x, y⟩ = ‖x - y‖²` for vectors of equal length. -/
theorem normSq_sub : ∀ (x y : List ℚ), x.length = y.length →
    normSq (vecSub x y) = normSq x + normSq y - 2 * dotp x y := by
  intro x
  induction x with
  | nil =>
    intro y hy
    have : y = [] := List.eq_nil_of_length_eq_zero hy.symm
    subst this
    simp [normSq, dotp, vecSub]
  | cons a xt ih =>
    intro y hy
    cases y with
    | nil => simp at hy
    | cons b yt =>
      have hlen : xt.length = yt.length := by simpa using hy
      simp only [vecSub_cons, normSq, dotp_cons]
      have ihx := ih yt hlen
      simp only [normSq] at ihx
      rw [ihx]
      ring

theorem not_diag_mem_distinctPairs {L : Type} [DecidableEq L] (ks : List L)
    (l : L) : (l, l) ∉ distinctPairs ks := by
  intro h
  simp only [distinctPairs, List.mem_flatMap, List.mem_map, List.mem_filter,
    decide_eq_true_eq] at h
  obtain ⟨u, hu, v, ⟨hv, hvu⟩, heq⟩ := h
  have h1 : u = l := congrArg Prod.fst heq
  have h2 : v = l := congrArg Prod.snd heq
  exact hvu (h2.trans h1.symm)

theorem mk_pairwise_lookup {L : Type} [DecidableEq L] (nrm : List ℚ → ℚ)
    (ltv : List (L × List ℚ)) (base : ℚ) (key : L × L) :
    (mkMarginAdapter nrm ltv base).pairwise_dists.lookup key =
      if key ∈ distinctPairs (ltv.map Prod.fst) then
        some (nrm (vecSub ((ltv.lookup key.1).getD [])
          ((ltv.lookup key.2).getD []))) else none := by
  have h := lookup_map_pair
    (fun ab => nrm (vecSub ((ltv.lookup ab.1).getD [])
      ((ltv.lookup ab.2).getD [])))
    (distinctPairs (ltv.map Prod.fst)) key
  exact h

theorem mk_sem_lookup {L : Type} [DecidableEq L] (nrm : List ℚ → ℚ)
    (ltv : List (L × List ℚ)) (base : ℚ) (key : L × L) :
    (mkMarginAdapter nrm ltv base).dist_semantic.lookup key =
      if key ∈ distinctPairs (ltv.map Prod.fst) then
        some (nrm (vecSub ((ltv.lookup key.1).getD [])
          ((ltv.lookup key.2).getD [])) / 4 - base) else none := by
  have h := lookup_map_pair
    (fun ab => nrm (vecSub ((ltv.lookup ab.1).getD [])
      ((ltv.lookup ab.2).getD [])) / 4 - base)
    (distinctPairs (ltv.map Prod.fst)) key
  exact h

/-- The `dist_semantic` table of a constructed adapter holds exactly
`d/4 - base_margin` where `d` is the corresponding pairwise distance. -/
theorem mk_sem_eq_pairwise {L : Type} [DecidableEq L] (nrm : List ℚ → ℚ)
    (ltv : List (L × List ℚ)) (base : ℚ) (key : L × L) :
    (mkMarginAdapter nrm ltv base).dist_semantic.lookup key =
      ((mkMarginAdapter nrm ltv base).pairwise_dists.lookup key).map
        (fun d => d / 4 - base) := by
  rw [mk_pairwise_lookup, mk_sem_lookup]
  by_cases h : key ∈ distinctPairs (ltv.map Prod.fst)
  · rw [if_pos h, if_pos h, Option.map_some']
  · rw [if_neg h, if_neg h, Option.map_none']

unseal Rat.add Rat.mul Rat.inv Rat.sub Rat.ofScientific

/-- C4: for every triple whose (positive-label, negative-label) pair is
present in the table, the continuous policy (`adapt2`) returns
`base_margin + (distance/4 - base_margin)`, which equals `distance/4`
exactly, and the whole output is independent of `base_margin`: two
constructions differing only in the base margin give identical
continuous-policy outputs (on every input, present or not). -/
theorem C4_continuous_margin {L : Type} [DecidableEq L] (nrm : List ℚ → ℚ)
    (ltv : List (L × List ℚ)) (b b2 : ℚ) (labels : List L)
    (selPos selNeg : List ℕ) :
    adapt2 (mkMarginAdapter nrm ltv b) labels selPos selNeg =
      mapMopt (fun pn =>
        (labels[pn.1]?).bind (fun pl =>
          (labels[pn.2]?).bind (fun nl =>
            ((mkMarginAdapter nrm ltv b).pairwise_dists.lookup (pl, nl)).map
              (fun d => [b + (d / 4 - b)]))))
        (selPos.zip selNeg) ∧
    adapt2 (mkMarginAdapter nrm ltv b) labels selPos selNeg =
      mapMopt (fun pn =>
        (labels[pn.1]?).bind (fun pl =>
          (labels[pn.2]?).bind (fun nl =>
            ((mkMarginAdapter nrm ltv b).pairwise_dists.lookup (pl, nl)).map
              (fun d => [d / 4]))))
        (selPos.zip selNeg) ∧
    adapt2 (mkMarginAdapter nrm ltv b) labels selPos selNeg =
      adapt2 (mkMarginAdapter nrm ltv b2) labels selPos selNeg := by
  have key : ∀ bb : ℚ,
      adapt2 (mkMarginAdapter nrm ltv bb) labels selPos selNeg =
        mapMopt (fun pn =>
          (labels[pn.1]?).bind (fun pl =>
            (labels[pn.2]?).bind (fun nl =>
              ((mkMarginAdapter nrm ltv bb).pairwise_dists.lookup (pl, nl)).map
                (fun d => [d / 4]))))
          (selPos.zip selNeg) := by
    intro bb
    apply mapMopt_congr
    intro pn _
    cases hpl : labels[pn.1]? with
    | none => simp [hpl]
    | some pl =>
      cases hnl : labels[pn.2]? with
      | none => simp [hpl, hnl]
      | some nl =>
        simp only [hpl, hnl, Option.some_bind]
        rw [mk_sem_eq_pairwise]
        cases hlk : (mkMarginAdapter nrm ltv bb).pairwise_dists.lookup (pl, nl) with
        | none => simp
        | some d =>
          simp only [Option.map_some']
          have hval : (mkMarginAdapter nrm ltv bb).base_margin + (d / 4 - bb)
              = d / 4 := by
            show bb + (d / 4 - bb) = d / 4
            ring
          rw [hval]
  refine ⟨?_, key b, ?_⟩
  · rw [key b]
    apply mapMopt_congr
    intro pn _
    cases hpl : labels[pn.1]? with
    | none => simp
    | some pl =>
      cases hnl : labels[pn.2]? with
      | none => simp
      | some nl =>
        simp only [Option.some_bind]
        cases hlk : (mkMarginAdapter nrm ltv b).pairwise_dists.lookup (pl, nl) with
        | none => simp
        | some d =>
          simp only [Option.map_some']
          have : b + (d / 4 - b) = d / 4 := by ring
          rw [this]
  · rw [key b, key b2]
    rfl

/-- C5: for every batch of triples on which the binary-threshold policy
(`adapt`) succeeds, it emits exactly one single-element margin per input
triple in input order; the triple whose looked-up pairwise distance is `d`
receives `[base_margin + 1]` when `d` is strictly greater than the average
distance and `[base_margin - 1]` otherwise (ties included); and every
emitted margin is one of these two values — no third value occurs. -/
theorem C5_binary_policy {L : Type} [DecidableEq L] (A : MarginAdapter L)
    (labels : List L) (selPos selNeg : List ℕ) (out : List (List ℚ))
    (h : adapt A labels selPos selNeg = some out) :
    out.length = (selPos.zip selNeg).length ∧
    (∀ (i : ℕ) (pn : ℕ × ℕ) (pl nl : L) (d : ℚ),
      (selPos.zip selNeg)[i]? = some pn →
      labels[pn.1]? = some pl → labels[pn.2]? = some nl →
      A.pairwise_dists.lookup (pl, nl) = some d →
      out[i]? = some (if A.average_dist < d then [A.base_margin + 1]
        else [A.base_margin - 1])) ∧
    (∀ m ∈ out, m = [A.base_margin + 1] ∨ m = [A.base_margin - 1]) := by
  refine ⟨mapMopt_length h, ?_, ?_⟩
  · intro i pn pl nl d hz hpl hnl hlk
    obtain ⟨bval, hb, hout⟩ := mapMopt_getElem? h hz
    simp only [hpl, hnl, Option.some_bind, hlk, Option.map_some',
      Option.some.injEq] at hb
    rw [hout, hb]
  · intro m hm
    obtain ⟨a, _, hfa⟩ := mapMopt_mem h hm
    cases hpl : labels[a.1]? with
    | none => rw [hpl] at hfa; simp at hfa
    | some pl =>
      cases hnl : labels[a.2]? with
      | none => rw [hpl, hnl] at hfa; simp at hfa
      | some nl =>
        cases hlk : A.pairwise_dists.lookup (pl, nl) with
        | none =>
          rw [hpl, hnl] at hfa
          simp only [Option.some_bind] at hfa
          rw [hlk] at hfa
          simp at hfa
        | some d =>
          rw [hpl, hnl] at hfa
          simp only [Option.some_bind] at hfa
          rw [hlk] at hfa
          simp only [Option.map_some', Option.some.injEq] at hfa
          by_cases hd : A.average_dist < d
          · left; rw [← hfa, if_pos hd]
          · right; rw [← hfa, if_neg hd]

/-- C5 witness: a concrete two-label adapter (base margin 1/2, both
pairwise distances 2, average 2) on one triple whose distance ties the
average: the emitted margin is the single element `[base_margin - 1]`. -/
theorem C5_binary_policy_witness :
    ([[(-1 : ℚ)/2]] : List (List ℚ))[0]? =
      some (if (mkMarginAdapter absNorm1
            [((0 : ℕ), [(2 : ℚ)]), (1, [0])] (1/2)).average_dist < 2
        then [(mkMarginAdapter absNorm1
            [((0 : ℕ), [(2 : ℚ)]), (1, [0])] (1/2)).base_margin + 1]
        else [(mkMarginAdapter absNorm1
            [((0 : ℕ), [(2 : ℚ)]), (1, [0])] (1/2)).base_margin - 1]) :=
  (C5_binary_policy
    (mkMarginAdapter absNorm1 [((0 : ℕ), [(2 : ℚ)]), (1, [0])] (1/2))
    [0, 1] [0] [1] [[(-1 : ℚ)/2]] (by rfl)).2.1
    0 (0, 1) 0 1 2 (by rfl) (by rfl) (by rfl) (by rfl)

/-- C9: a triple whose (pos_label, neg_label) pair is missing from the
pairwise table makes both margin policies abort with no margin sequence
(the Python dict raises KeyError, modelled as `none`); and the table of a
constructed adapter never contains a diagonal pair `(l, l)`, since it is
built over ordered pairs of distinct labels only. -/
theorem C9_missing_pair {L : Type} [DecidableEq L] (nrm : List ℚ → ℚ)
    (ltv : List (L × List ℚ)) (b : ℚ) (labels : List L)
    (selPos selNeg : List ℕ) (i : ℕ) (pn : ℕ × ℕ) (pl nl : L)
    (hz : (selPos.zip selNeg)[i]? = some pn)
    (hpl : labels[pn.1]? = some pl)
    (hnl : labels[pn.2]? = some nl)
    (habs : (mkMarginAdapter nrm ltv b).pairwise_dists.lookup (pl, nl) = none) :
    adapt (mkMarginAdapter nrm ltv b) labels selPos selNeg = none ∧
    adapt2 (mkMarginAdapter nrm ltv b) labels selPos selNeg = none ∧
    ∀ l0 : L, (mkMarginAdapter nrm ltv b).pairwise_dists.lookup (l0, l0) = none := by
  have hmem : pn ∈ selPos.zip selNeg := List.getElem?_mem hz
  refine ⟨?_, ?_, ?_⟩
  · exact mapMopt_none hmem (by simp [hpl, hnl, habs])
  · apply mapMopt_none hmem
    simp only [hpl, hnl, Option.some_bind]
    rw [mk_sem_eq_pairwise, habs]
    rfl
  · intro l0
    rw [mk_pairwise_lookup]
    exact if_neg (not_diag_mem_distinctPairs _ l0)

/-- C9 witness: an adapter over labels `0, 1` queried with a triple whose
positive and negative labels are both `0`: the diagonal pair is absent and
both policies return no margin sequence. -/
theorem C9_missing_pair_witness :
    adapt (mkMarginAdapter absNorm1 [((0 : ℕ), [(0 : ℚ)]), (1, [7])] 1)
        [0, 0] [0] [1] = none ∧
    adapt2 (mkMarginAdapter absNorm1 [((0 : ℕ), [(0 : ℚ)]), (1, [7])] 1)
        [0, 0] [0] [1] = none :=
  ⟨(C9_missing_pair absNorm1 [((0 : ℕ), [(0 : ℚ)]), (1, [7])] 1 [0, 0]
      [0] [1] 0 (0, 1) 0 0 (by rfl) (by rfl) (by rfl) (by rfl)).1,
   (C9_missing_pair absNorm1 [((0 : ℕ), [(0 : ℚ)]), (1, [7])] 1 [0, 0]
      [0] [1] 0 (0, 1) 0 0 (by rfl) (by rfl) (by rfl) (by rfl)).2.1⟩

/-- C8: the `average_dist` of a constructed adapter is the arithmetic mean
(sum divided by count) of all entries of the pairwise distance table, it is
a field computed once at construction, and two constructions with the same
labels, vectors and norm but different base margins have identical pairwise
tables and identical average distance. -/
theorem C8_average_invariant {L : Type} [DecidableEq L] (nrm : List ℚ → ℚ)
    (ltv : List (L × List ℚ)) (b b2 : ℚ) :
    (mkMarginAdapter nrm ltv b).average_dist =
      ((mkMarginAdapter nrm ltv b).pairwise_dists.map Prod.snd).sum /
        (((mkMarginAdapter nrm ltv b).pairwise_dists.map Prod.snd).length : ℚ) ∧
    (mkMarginAdapter nrm ltv b).pairwise_dists =
      (mkMarginAdapter nrm ltv b2).pairwise_dists ∧
    (mkMarginAdapter nrm ltv b).average_dist =
      (mkMarginAdapter nrm ltv b2).average_dist :=
  ⟨rfl, rfl, rfl⟩

/-- C3 counterexample: with base margin `0.5` and a pairwise semantic
distance of `2.0` for the queried pair, the continuous policy returns the
margin `0.5`, not `0.0` as claimed: the adapter below has both pairwise
distances equal to `2` and the returned margin list is `[[1/2]]`. -/
theorem C3_continuous_example_counterexample :
    adapt2 (mkMarginAdapter absNorm1 [((0 : ℕ), [(2 : ℚ)]), (1, [0])] (1/2))
        [0, 1] [0] [1] = some [[(1 : ℚ)/2]] ∧ ((1 : ℚ)/2) ≠ 0 := by
  constructor
  · rfl
  · norm_num

/-- C3 amended: when base_margin = 0.5 and the pairwise distance looked up
for the triple's label pair is 2.0, the continuous policy returns the
margin 0.5 (that is, distance/4 = 2.0/4), not 0.0. -/
theorem C3_continuous_example {L : Type} [DecidableEq L] (nrm : List ℚ → ℚ)
    (ltv : List (L × List ℚ)) (labels : List L) (sp sn : List ℕ)
    (i : ℕ) (pn : ℕ × ℕ) (pl nl : L) (out : List (List ℚ))
    (hz : (sp.zip sn)[i]? = some pn)
    (hpl : labels[pn.1]? = some pl)
    (hnl : labels[pn.2]? = some nl)
    (hd : (mkMarginAdapter nrm ltv (1/2)).pairwise_dists.lookup (pl, nl) = some 2)
    (hout : adapt2 (mkMarginAdapter nrm ltv (1/2)) labels sp sn = some out) :
    out[i]? = some [(1 : ℚ)/2] := by
  obtain ⟨bval, hb, houti⟩ := mapMopt_getElem? hout hz
  rw [hpl, hnl] at hb
  simp only [Option.some_bind] at hb
  rw [mk_sem_eq_pairwise, hd] at hb
  simp only [Option.map_some', Option.some.injEq] at hb
  rw [houti, ← hb]
  have hbm : (mkMarginAdapter nrm ltv ((1 : ℚ)/2)).base_margin = 1/2 := rfl
  rw [hbm]
  norm_num

/-- C3 amended witness: the concrete adapter with base margin 1/2 and
pairwise distance 2 returns the margin 1/2 for its single triple. -/
theorem C3_continuous_example_witness :
    (([[(1 : ℚ)/2]] : List (List ℚ)))[0]? = some [(1 : ℚ)/2] :=
  C3_continuous_example absNorm1 [((0 : ℕ), [(2 : ℚ)]), (1, [0])]
    [0, 1] [0] [1] 0 (0, 1) 0 1 [[(1 : ℚ)/2]]
    (by rfl) (by rfl) (by rfl) (by rfl) (by rfl)

/-- C6: in the ranking metric evaluator with an N-column prediction matrix,
an unspecified cutoff or one outside [3, N] is silently replaced by N,
while a cutoff inside [3, N] is used as-is; in particular k = 2 with N = 3
is replaced by 3 and k = 3 with N = 3 is kept. -/
theorem C6_cutoff_clamp (ypred : List (List (WithBot ℚ))) (k : ℕ) :
    kOf ypred none = nCols ypred ∧
    ((k < 3 ∨ nCols ypred < k) → kOf ypred (some k) = nCols ypred) ∧
    (3 ≤ k → k ≤ nCols ypred → kOf ypred (some k) = k) ∧
    clampK (some 2) 3 = 3 ∧
    clampK (some 3) 3 = 3 := by
  refine ⟨rfl, ?_, ?_, by decide, by decide⟩
  · intro h
    simp only [kOf, clampK]
    rw [if_neg (by omega)]
  · intro h1 h2
    simp only [kOf, clampK]
    rw [if_pos ⟨h1, h2⟩]

/-- C6 witness: on a 3×3 matrix, k = 2 is out of range and replaced by 3,
while k = 3 is in range and kept. -/
theorem C6_cutoff_clamp_witness :
    kOf [[(⊥ : WithBot ℚ), ⊥, ⊥], [⊥, ⊥, ⊥], [⊥, ⊥, ⊥]] (some 2) = 3 ∧
    kOf [[(⊥ : WithBot ℚ), ⊥, ⊥], [⊥, ⊥, ⊥], [⊥, ⊥, ⊥]] (some 3) = 3 :=
  ⟨(C6_cutoff_clamp [[(⊥ : WithBot ℚ), ⊥, ⊥], [⊥, ⊥, ⊥], [⊥, ⊥, ⊥]] 2).2.1
      (Or.inl (by decide)),
   (C6_cutoff_clamp [[(⊥ : WithBot ℚ), ⊥, ⊥], [⊥, ⊥, ⊥], [⊥, ⊥, ⊥]] 3).2.2.1
      (by decide) (by decide)⟩

/-- C7: every entry (i, j) of the embedding distance matrix equals
`max eps (‖x_i‖² + ‖y_j‖² - 2 x_i·y_j)`, which for equal-length vectors is
exactly the squared Euclidean distance `‖x_i - y_j‖²` clamped below at
`eps`; consequently every entry is at least `eps`, and omitting the second
batch uses `y = x`. -/
theorem C7_distance_matrix (xs ys : List (List ℚ)) (eps : ℚ) (i j : ℕ)
    (x y : List ℚ) (hx : xs[i]? = some x) (hy : ys[j]? = some y) :
    ((pairwise_distance_matrix xs (some ys) eps).getD i []).getD j 0 =
      max eps (normSq x + normSq y - 2 * dotp x y) ∧
    (x.length = y.length →
      max eps (normSq x + normSq y - 2 * dotp x y) =
        max eps (normSq (vecSub x y))) ∧
    eps ≤ ((pairwise_distance_matrix xs (some ys) eps).getD i []).getD j 0 ∧
    pairwise_distance_matrix xs none eps =
      pairwise_distance_matrix xs (some xs) eps ∧
    (∀ r ∈ pairwise_distance_matrix xs (some ys) eps, ∀ v ∈ r, eps ≤ v) := by
  have hentry :
      ((pairwise_distance_matrix xs (some ys) eps).getD i []).getD j 0 =
        max eps (normSq x + normSq y - 2 * dotp x y) := by
    simp only [pairwise_distance_matrix, List.getD_eq_getElem?_getD,
      List.getElem?_map, hx, hy, Option.map_some', Option.getD_some]
  refine ⟨hentry, ?_, ?_, rfl, ?_⟩
  · intro hl
    rw [normSq_sub x y hl]
  · rw [hentry]
    exact le_max_left eps _
  · intro r hr v hv
    simp only [pairwise_distance_matrix, List.mem_map] at hr
    obtain ⟨xi, _, hxi⟩ := hr
    rw [← hxi] at hv
    simp only [List.mem_map] at hv
    obtain ⟨yj, _, hyj⟩ := hv
    rw [← hyj]
    exact le_max_left eps _

/-- C7 witness: for the 1×1 batch pair x = [[1, 2]], y = [[3, 4]] with
eps = 1/1000 the single entry is the clamped squared distance and is at
least eps. -/
theorem C7_distance_matrix_witness :
    ((pairwise_distance_matrix [[1, 2]] (some [[3, 4]]) (1/1000)).getD 0 []).getD 0 0 =
      max (1/1000) (normSq [1, 2] + normSq [3, 4] - 2 * dotp [1, 2] [3, 4]) ∧
    (1/1000 : ℚ) ≤
      ((pairwise_distance_matrix [[1, 2]] (some [[3, 4]]) (1/1000)).getD 0 []).getD 0 0 :=
  ⟨(C7_distance_matrix [[1, 2]] [[3, 4]] (1/1000) 0 0 [1, 2] [3, 4]
      (by rfl) (by rfl)).1,
   (C7_distance_matrix [[1, 2]] [[3, 4]] (1/1000) 0 0 [1, 2] [3, 4]
      (by rfl) (by rfl)).2.2.1⟩

/-- C1: in the evaluation pipeline the matrix handed to `average_precision`
is the negated distance matrix with the self-distance diagonal forced to
`-inf` (modelled by `evalYpred`), and ranking is top-k of that matrix; for
every square distance matrix with N ≥ 2 items and every query i, the
top-ranked index of row i exists and is never i itself. -/
theorem C1_no_self_top (dist : List (List ℚ)) (kOpt : Option ℕ) (i : ℕ)
    (hsq : ∀ r ∈ dist, r.length = dist.length)
    (hN : 2 ≤ dist.length) (hi : i < dist.length) :
    (((spredM (evalYpred dist) kOpt)[i]?.getD []).head?).isSome = true ∧
    ((spredM (evalYpred dist) kOpt)[i]?.getD []).head? ≠ some i := by
  have hne : dist ≠ [] := by
    intro h
    rw [h] at hN
    simp at hN
  have hcols : nCols dist = dist.length := by
    cases dist with
    | nil => exact absurd rfl hne
    | cons d0 ds => exact hsq d0 (List.mem_cons_self d0 ds)
  have hr : dist[i]? = some dist[i] := List.getElem?_eq_getElem hi
  have hrlen : (dist[i]).length = dist.length :=
    hsq (dist[i]) (List.getElem_mem hi)
  set r : List ℚ := dist[i] with hrdef
  set yrow : List (WithBot ℚ) := r.enum.map (fun jd =>
    if i = jd.1 then (⊥ : WithBot ℚ) else ((-jd.2 : ℚ) : WithBot ℚ)) with hyrowdef
  have hyrow : (evalYpred dist)[i]? = some yrow := evalYpred_getElem hr
  set k : ℕ := kOf (evalYpred dist) kOpt with hkdef
  have hsp : (spredM (evalYpred dist) kOpt)[i]? = some (topkIdx k yrow) := by
    simp only [spredM, List.getElem?_map, hyrow, Option.map_some']
  have hk1 : 1 ≤ k := by
    rw [hkdef, kOf, nCols_evalYpred hne, hcols]
    exact clampK_pos (by omega)
  have hyrowlen : yrow.length = dist.length := by
    rw [hyrowdef]
    simp [hrlen]
  have hyne : yrow.enum ≠ [] := by
    intro h
    simp only [List.enum, List.enumFrom_eq_nil] at h
    rw [h] at hyrowlen
    simp at hyrowlen
    omega
  cases hp : firstMaxPair yrow.enum with
  | none => exact absurd (firstMaxPair_eq_none.mp hp) hyne
  | some p =>
    have hhead : (topkIdx k yrow).head? = some p.1 :=
      topkAux_head (by omega) hp
    rw [hsp]
    simp only [Option.getD_some]
    refine ⟨by rw [hhead]; rfl, ?_⟩
    rw [hhead]
    intro hcontra
    have hp1 : p.1 = i := by
      simpa using hcontra
    have hpmem : p ∈ yrow.enum := firstMaxPair_mem hp
    have hpget : yrow[p.1]? = some p.2 := List.mem_enum_iff_getElem?.mp hpmem
    have hii : r[i]? = some r[i] := List.getElem?_eq_getElem (by omega)
    have hyi : yrow[i]? = some (⊥ : WithBot ℚ) := by
      have h1 := evalYpredRow_getElem i hii
      rw [if_pos rfl] at h1
      exact h1
    have hp2 : p.2 = (⊥ : WithBot ℚ) := by
      have hpget2 : yrow[i]? = some p.2 := by
        rw [← hp1]
        exact hpget
      rw [hyi] at hpget2
      exact (Option.some_inj.mp hpget2).symm
    set j0 : ℕ := if i = 0 then 1 else 0 with hj0def
    have hj0i : j0 ≠ i := by
      by_cases h0 : i = 0
      · simp [hj0def, h0]
      · simp [hj0def, h0]
        exact fun h => h0 h.symm
    have hj0lt : j0 < dist.length := by
      by_cases h0 : i = 0
      · simp [hj0def, h0]
        omega
      · simp [hj0def, h0]
        omega
    have hj0r : r[j0]? = some r[j0] := List.getElem?_eq_getElem (by omega)
    have hyj0 : yrow[j0]? = some ((-(r[j0]) : ℚ) : WithBot ℚ) := by
      have h1 := evalYpredRow_getElem i hj0r
      rw [if_neg (fun h => hj0i h.symm)] at h1
      exact h1
    have hqmem : (j0, ((-(r[j0]) : ℚ) : WithBot ℚ)) ∈ yrow.enum :=
      List.mem_enum_iff_getElem?.mpr hyj0
    have hle := firstMaxPair_isMax hp _ hqmem
    rw [hp2] at hle
    exact WithBot.not_coe_le_bot _ hle

/-- C1 witness: for the 2×2 distance matrix [[0, 1], [1, 0]] the top-ranked
index of query 0 exists and is not 0 itself. -/
theorem C1_no_self_top_witness :
    (((spredM (evalYpred [[0, 1], [1, 0]]) none)[0]?.getD []).head?).isSome = true ∧
    ((spredM (evalYpred [[0, 1], [1, 0]]) none)[0]?.getD []).head? ≠ some 0 :=
  C1_no_self_top [[0, 1], [1, 0]] none 0 (by decide) (by decide) (by decide)

/-- C10: in the ranking metric evaluator, a query whose relevance row is
entirely zero has an all-zero reordered row, and the epsilon-subtraction
tie-break then selects ranked position 0 (1-indexed rank 1) as the
first-relevant rank; such a query therefore contributes reciprocal rank
exactly 1 to MRR and rank exactly 1 to MR. -/
theorem C10_zero_row_rank_one (ytrue : List (List ℚ))
    (ypred : List (List (WithBot ℚ))) (kOpt : Option ℕ) (i : ℕ) (yr : List ℚ)
    (hlen : ytrue.length ≤ ypred.length)
    (hcols : ∀ r ∈ ypred, r.length = nCols ypred)
    (hcpos : 1 ≤ nCols ypred)
    (hyr : ytrue[i]? = some yr)
    (hz : ∀ v ∈ yr, v = 0) :
    (selList ytrue ypred kOpt)[i]? = some 0 ∧
    ((selList ytrue ypred kOpt).map (fun (s : ℕ) => 1 / ((s : ℚ) + 1)))[i]? = some 1 ∧
    ((selList ytrue ypred kOpt).map (fun (s : ℕ) => ((s : ℚ) + 1)))[i]? = some 1 := by
  have hi : i < ytrue.length := (List.getElem?_eq_some_iff.mp hyr).1
  have hiyp : i < ypred.length := by omega
  have hrow : ypred[i]? = some ypred[i] := List.getElem?_eq_getElem hiyp
  set k : ℕ := kOf ypred kOpt with hkdef
  have hk1 : 1 ≤ k := clampK_pos hcpos
  set srow : List ℕ := topkIdx k ypred[i] with hsrowdef
  have hsp : (spredM ypred kOpt)[i]? = some srow := by
    simp only [spredM, List.getElem?_map, hrow, Option.map_some', hsrowdef,
      hkdef]
  have hfr : (foundM ytrue ypred kOpt)[i]? = some (gatherRow yr srow) :=
    List.getElem?_zipWith_eq_some.mpr ⟨yr, srow, hyr, hsp, rfl⟩
  have hfz : ∀ v ∈ gatherRow yr srow, v = 0 := gatherRow_all_zero hz srow
  have hrowne : ypred[i].enum ≠ [] := by
    intro h
    simp only [List.enum, List.enumFrom_eq_nil] at h
    have := hcols (ypred[i]) (List.getElem_mem hiyp)
    rw [h] at this
    simp at this
    omega
  have hsne : srow ≠ [] := by
    rw [hsrowdef, topkIdx]
    exact topkAux_ne_nil (by omega) hrowne
  have hfne : gatherRow yr srow ≠ [] := by
    intro h
    have h1 := gatherRow_length yr srow
    rw [h] at h1
    simp at h1
    exact hsne (List.eq_nil_of_length_eq_zero h1.symm)
  have hsel : topkIdx 1 (List.zipWith (fun a b => a - b) (gatherRow yr srow)
      (tempSeq k)) = [0] :=
    sel_of_zero_row hfz hfne (by omega)
  have hmain : (selList ytrue ypred kOpt)[i]? = some 0 := by
    simp only [selList, List.getElem?_map, hfr, Option.map_some', ← hkdef,
      hsel]
    rfl
  refine ⟨hmain, ?_, ?_⟩
  · rw [List.getElem?_map, hmain]
    norm_num
  · rw [List.getElem?_map, hmain]
    norm_num

/-- C10 witness: query 0 of the concrete instance has an all-zero relevance
row and receives first-relevant position 0, reciprocal rank 1, rank 1. -/
theorem C10_zero_row_rank_one_witness :
    (selList [[0, 0], [1, 0]] (evalYpred [[0, 1], [1, 0]]) none)[0]? = some 0 ∧
    ((selList [[0, 0], [1, 0]] (evalYpred [[0, 1], [1, 0]]) none).map
      (fun (s : ℕ) => 1 / ((s : ℚ) + 1)))[0]? = some 1 ∧
    ((selList [[0, 0], [1, 0]] (evalYpred [[0, 1], [1, 0]]) none).map
      (fun (s : ℕ) => ((s : ℚ) + 1)))[0]? = some 1 :=
  C10_zero_row_rank_one [[0, 0], [1, 0]] (evalYpred [[0, 1], [1, 0]]) none 0
    [0, 0] (by decide) (by decide) (by decide) (by rfl) (by decide)

/-- C2 (amended): for binary ground truth, the per-query average precision
computed by the evaluator equals the specification sum
`Σ_{positions j with found = 1} precision-at-j` divided by
`(total number of relevant items for that query) + eps` — the code adds the
numerical-stability epsilon to the denominator, so it is slightly below the
claimed `Σ/total`; mAP is the mean of this value over exactly the queries
with at least one relevant item (row sum positive, equivalently a `1`
occurs in the row), while MRR and MR are sums over all queries divided by
the total number of queries. -/
theorem C2_ap_formula (ytrue : List (List ℚ)) (ypred : List (List (WithBot ℚ)))
    (kOpt : Option ℕ) (eps : ℚ) (i : ℕ) (yr fr : List ℚ)
    (hbin : ∀ r ∈ ytrue, BinaryRow r)
    (hlen : ypred.length = ytrue.length)
    (hyr : ytrue[i]? = some yr)
    (hfr : (foundM ytrue ypred kOpt)[i]? = some fr) :
    (apAll ytrue ypred kOpt eps)[i]? =
      some (specAP fr / (countOnes yr + eps)) ∧
    mapOf ytrue ypred kOpt eps = listMean (apFiltered ytrue ypred kOpt eps) ∧
    (∀ yr2 ∈ ytrue, (0 < yr2.sum ↔ (1 : ℚ) ∈ yr2)) ∧
    mrrOf ytrue ypred kOpt =
      ((selList ytrue ypred kOpt).map (fun (s : ℕ) => 1 / ((s : ℚ) + 1))).sum /
        ((ytrue.length : ℕ) : ℚ) ∧
    mrOf ytrue ypred kOpt =
      ((selList ytrue ypred kOpt).map (fun (s : ℕ) => ((s : ℚ) + 1))).sum /
        ((ytrue.length : ℕ) : ℚ) := by
  have hyrmem : yr ∈ ytrue := List.getElem?_mem hyr
  set k : ℕ := kOf ypred kOpt with hkdef
  obtain ⟨yr2, srow, hyr2, hsp, hgr⟩ := List.getElem?_zipWith_eq_some.mp hfr
  have hyy : yr2 = yr := by
    rw [hyr] at hyr2
    exact Option.some_inj.mp hyr2.symm
  subst hyy
  obtain ⟨row, hrow, hsrow⟩ :
      ∃ row, ypred[i]? = some row ∧ srow = topkIdx k row := by
    simp only [spredM, List.getElem?_map] at hsp
    cases hr2 : ypred[i]? with
    | none => rw [hr2] at hsp; simp at hsp
    | some row =>
      rw [hr2] at hsp
      simp only [Option.map_some', Option.some.injEq] at hsp
      exact ⟨row, rfl, hsp.symm⟩
  have hfrbin : BinaryRow fr := by
    rw [← hgr]
    exact gatherRow_binary (hbin yr2 hyrmem) srow
  have hfrlen : fr.length ≤ k := by
    rw [← hgr, gatherRow_length, hsrow]
    exact topkIdx_length_le k row
  have happ : (apAll ytrue ypred kOpt eps)[i]? = some (apRow k eps yr2 fr) :=
    List.getElem?_zipWith_eq_some.mpr ⟨yr2, fr, hyr, hfr, rfl⟩
  have hnum := apSum_eq fr 0 0 k hfrbin hfrlen
  have hden : yr2.sum = countOnes yr2 :=
    (binaryRow_countOnes_eq_sum (hbin yr2 hyrmem)).symm
  have hval : apRow k eps yr2 fr = specAP fr / (countOnes yr2 + eps) := by
    simp only [apRow, cumsum]
    rw [hnum, specAP, hden]
  have hsl : (selList ytrue ypred kOpt).length = ytrue.length := by
    simp only [selList, List.length_map, foundM, List.length_zipWith, spredM,
      hlen]
    omega
  refine ⟨by rw [happ, hval], rfl, ?_, ?_, ?_⟩
  · intro yr3 h3
    exact binaryRow_sum_pos_iff (hbin yr3 h3)
  · simp only [mrrOf, listMean, List.length_map, hsl]
  · simp only [mrOf, listMean, List.length_map, hsl]

/-- C2 witness: concrete 2×2 instance (query 0 has one relevant item ranked
first): the computed per-query average precision is the specification sum 1
divided by 1 + eps, and the global conjuncts hold. -/
theorem C2_ap_formula_witness :
    (apAll [[0, 1], [1, 0]] (evalYpred [[0, 1], [1, 0]]) none
      (1/10000000000))[0]? =
      some (specAP [1, 0] / (countOnes [(0 : ℚ), 1] + 1/10000000000)) :=
  (C2_ap_formula [[0, 1], [1, 0]] (evalYpred [[0, 1], [1, 0]]) none
    (1/10000000000) 0 [0, 1] [1, 0] (by decide) (by rfl) (by rfl) (by rfl)).1

/-- C2 counterexample: the claim as stated divides by the number of
relevant items with no epsilon; the code divides by that count plus
eps = 1e-10.  For the concrete 2×2 instance the code computes
10^10/(10^10+1) where the claimed formula gives exactly 1, so the two
differ. -/
theorem C2_ap_formula_counterexample :
    (apAll [[0, 1], [1, 0]] (evalYpred [[0, 1], [1, 0]]) none
      (1/10000000000)).getD 0 0 = 10000000000/10000000001 ∧
    specAP ((foundM [[0, 1], [1, 0]] (evalYpred [[0, 1], [1, 0]]) none).getD 0 []) /
      countOnes [(0 : ℚ), 1] = 1 ∧
    ((10000000000 : ℚ)/10000000001) ≠ 1 := by
  refine ⟨by rfl, by rfl, by norm_num⟩

end TAEmb
